import Mathlib

/-!
Verification of the brainfuck execution pipeline (bf.rs, parser.rs,
bytecode_bf.rs, optbytecode_jit.rs, llvm_jit.rs, simple_jit.rs,
jit_utils.rs).

Shallow embedding conventions:
  * Rust `usize`/`u8` values are modelled as `Nat`; wrapping casts carry an
    explicit `% 256` (for `as u8`) or `% 2^64` (for 64-bit wrap-around).
  * `u8` `+=`/`-=` in `bf.rs` is modelled with release-profile semantics,
    i.e. two's-complement wrap-around (`(v + 1) % 256`, `(v + 255) % 256`);
    a debug build would panic at the same spot, which is also a failure of
    the executions we compare against.
  * Panics (`panic!`, `unreachable!`, index out of bounds, `usize`
    underflow, `expect`) are modelled as the `panic` result.  A `usize`
    subtraction underflow inside `MoveInStepUntilZero` panics directly in a
    debug build and panics one access later (index out of bounds on a
    wrapped 64-bit index, far beyond the 30000-cell tape) in a release
    build; we model it as an immediate panic.
  * `print!("{}", b as char)` writes the UTF-8 encoding of the code point
    `b` (one byte below 128, two bytes above), modelled by `utf8OfByte`.
    `println!("")` writes the single byte 10.
  * Reading stdin consumes one entry of an input list per `,`/`Read`; an
    exhausted input models the EOF panic of `inp.as_bytes()[0]` /
    `read_exact(..).unwrap()`.
  * Loops (`while`) become fuel-indexed recursion; running out of fuel is
    the `outOfFuel` result, so divergence of the source is `outOfFuel` at
    every fuel.
-/

namespace BF

/-- MEMORY_SIZE from lib.rs: the fixed tape size. -/
def MEMORY_SIZE : Nat := 30000

/-- UTF-8 encoding of the Unicode code point `v` for `v < 256`, as produced
by `print!("{}", v as char)`: a single byte below 128, the two-byte
encoding of U+0080..U+00FF otherwise. -/
def utf8OfByte (v : Nat) : List Nat :=
  if v < 128 then [v] else [192 + v / 64, 128 + v % 64]

/-! ## Generic jump-table construction

`Program::compute_jumptable` (bf.rs lines 9-36) and
`ByteCodeProgram::compute_jumptable` (bytecode_bf.rs lines 31-58) are the
same algorithm, differing only in the bracket tests (`'['`/`']'` versus
`ByteCode::JZ`/`ByteCode::JNZ`).  We embed the algorithm once, parametrised
by the two tests, and instantiate it twice. -/

/-- Inner seek loop of `compute_jumptable`: starting just after an opener
with `nesting = n`, walk the given suffix; `']'`-likes decrement the
nesting, `'['`-likes increment it; return the offset (into the suffix) of
the position where nesting reaches zero, or `none` when the suffix is
exhausted first (the `panic!("unmatched '['")` path). -/
def seekAux {α : Type} (isOp isCl : α → Bool) : List α → Nat → Option Nat
  | [], _ => none
  | a :: rest, n =>
    let n2 := if isCl a then n - 1 else if isOp a then n + 1 else n
    if n2 = 0 then some 0 else (seekAux isOp isCl rest n2).map (· + 1)

/-- Outer loop of `compute_jumptable`: for each `pc` holding an opener
(`instructions[pc]`, carried here as the head of the remaining suffix
`prog.drop pc` so that the recursion is structural), run the seek; on
success record `jumptable[pc] = seek` and `jumptable[seek] = pc`; on
failure panic (`none`). -/
def cjtGo {α : Type} (isOp isCl : α → Bool) (prog : List α) :
    List α → Nat → List Nat → Option (List Nat)
  | [], _, table => some table
  | a :: suffix, pc, table =>
    if isOp a then
      match seekAux isOp isCl (prog.drop (pc + 1)) 1 with
      | some o =>
          cjtGo isOp isCl prog suffix (pc + 1)
            ((table.set pc (pc + 1 + o)).set (pc + 1 + o) pc)
      | none => none
    else cjtGo isOp isCl prog suffix (pc + 1) table

/-- Jump-table computation: `vec![0; prog_size]` then the scan of the whole
program starting at `pc = 0`. -/
def computeJumptableG {α : Type} (isOp isCl : α → Bool) (prog : List α) :
    Option (List Nat) :=
  cjtGo isOp isCl prog prog 0 (List.replicate prog.length 0)

/-- Signed contribution of one element to the bracket depth. -/
def deltaB {α : Type} (isOp isCl : α → Bool) (a : α) : Int :=
  if isOp a then 1 else if isCl a then -1 else 0

/-- Bracket-balance check: every prefix depth stays nonnegative and the
total depth is zero.  This is the spec's notion of a syntactically valid
(well-formed) program. -/
def balGo {α : Type} (isOp isCl : α → Bool) : List α → Int → Bool
  | [], d => d == 0
  | a :: rest, d =>
    let d2 := d + deltaB isOp isCl a
    decide (0 ≤ d2) && balGo isOp isCl rest d2

/-- BalancedB: bracket-balanced program. -/
def BalancedB {α : Type} (isOp isCl : α → Bool) (l : List α) : Bool :=
  balGo isOp isCl l 0

/-! ## The tree-walk interpreter (bf.rs) -/

/-- Program.compute_jumptable from bf.rs: brackets are the chars `[`, `]`. -/
def Program.compute_jumptable (prog : List Char) : Option (List Nat) :=
  computeJumptableG (fun c => c == '[') (fun c => c == ']') prog

/-- Machine state shared by the interpreter embeddings: the tape, the data
cursor, the bytes written to stdout so far, and the remaining input. -/
structure MState where
  mem : List Nat
  dc : Nat
  out : List Nat
  inp : List Nat
deriving DecidableEq

/-- Result of one instruction dispatch: continue at `pc` with a new state,
or panic. -/
inductive StepRes
  | cont (pc : Nat) (st : MState)
  | panic
deriving DecidableEq

/-- Result of a fuel-indexed run. -/
inductive RunRes
  | ok (st : MState)
  | panic
  | outOfFuel
deriving DecidableEq

/-- Stdout bytes of a completed run. -/
def RunRes.outOf : RunRes → Option (List Nat)
  | .ok st => some st.out
  | _ => none

/-- Value of tape cell 0 after a completed run. -/
def RunRes.cell0 : RunRes → Option Nat
  | .ok st => some (st.mem.getD 0 0)
  | _ => none

/-- Final data cursor of a completed run. -/
def RunRes.dcOf : RunRes → Option Nat
  | .ok st => some st.dc
  | _ => none

/-- One instruction of `Program::eval`'s match (bf.rs lines 46-80).  `<`
clamps the cursor (`data_counter -= 1.min(data_counter)`); `+`/`-` wrap the
cell modulo 256 (release-profile `u8` arithmetic); `.` prints the cell as a
char (UTF-8); `,` stores the first byte of the next input line; brackets
jump through the jump table; any other character hits `unreachable!()`. -/
def charStepInstr (jt : List Nat) (pc : Nat) (c : Char) (st : MState) :
    StepRes :=
  match c with
  | '>' => .cont (pc + 1) { st with dc := st.dc + 1 }
  | '<' => .cont (pc + 1) { st with dc := st.dc - min 1 st.dc }
  | '+' =>
    match st.mem.get? st.dc with
    | some v => .cont (pc + 1) { st with mem := st.mem.set st.dc ((v + 1) % 256) }
    | none => .panic
  | '-' =>
    match st.mem.get? st.dc with
    | some v => .cont (pc + 1) { st with mem := st.mem.set st.dc ((v + 255) % 256) }
    | none => .panic
  | '.' =>
    match st.mem.get? st.dc with
    | some v => .cont (pc + 1) { st with out := st.out ++ utf8OfByte v }
    | none => .panic
  | ',' =>
    match st.inp with
    | [] => .panic
    | b :: r =>
      match st.mem.get? st.dc with
      | some _ => .cont (pc + 1) { st with mem := st.mem.set st.dc (b % 256), inp := r }
      | none => .panic
  | '[' =>
    match st.mem.get? st.dc with
    | some v => .cont ((if v = 0 then jt.getD pc 0 else pc) + 1) st
    | none => .panic
  | ']' =>
    match st.mem.get? st.dc with
    | some v => .cont ((if v = 0 then pc else jt.getD pc 0) + 1) st
    | none => .panic
  | _ => .panic

/-- Main loop of `Program::eval`: `while pc < instructions.len()` (the
guard is equivalently `instructions.get? pc` being `some`), dispatch,
`pc += 1` (folded into `charStepInstr`). -/
def charRunGo (prog : List Char) (jt : List Nat) :
    Nat → Nat → MState → RunRes
  | fuel, pc, st =>
    match prog.get? pc with
    | none => .ok st
    | some i =>
      match fuel with
      | 0 => .outOfFuel
      | f + 1 =>
        match charStepInstr jt pc i st with
        | .cont pc2 st2 => charRunGo prog jt f pc2 st2
        | .panic => .panic

/-- Program.eval embedded as `Program.exec` (bf.rs lines 39-84): zeroed
30000-cell tape, cursor 0, compute the jump table (panicking on an
unmatched `[`), run the loop, then `println!("")` appends the byte 10. -/
def Program.exec (prog : List Char) (inp : List Nat) (fuel : Nat) : RunRes :=
  match Program.compute_jumptable prog with
  | none => .panic
  | some jt =>
    match charRunGo prog jt fuel 0 ⟨List.replicate MEMORY_SIZE 0, 0, [], inp⟩ with
    | .ok st => .ok { st with out := st.out ++ [10] }
    | r => r

/-! ## The bytecode representation (bytecode_bf.rs) -/

/-- Change from bytecode_bf.rs. -/
inductive Change
  | Incr (x : Nat)
  | Decr (x : Nat)
deriving DecidableEq

/-- ByteCode from bytecode_bf.rs. -/
inductive ByteCode
  | Nop
  | DataPointerIncr (x : Nat)
  | DataPointerDecr (x : Nat)
  | DataIncr (x : Nat)
  | DataDecr (x : Nat)
  | Write
  | Read
  | JZ
  | JNZ
  | SETZERO
  | MoveInStepUntilZero (chng : Change)
deriving DecidableEq

/-- ByteCodeProgram.compute_jumptable from bytecode_bf.rs: brackets are
`JZ`/`JNZ`. -/
def ByteCodeProgram.compute_jumptable (prog : List ByteCode) :
    Option (List Nat) :=
  computeJumptableG (fun i => i == ByteCode.JZ) (fun i => i == ByteCode.JNZ) prog

/-! ## The lexer and the bytecode lowerer (parser.rs) -/

/-- The eight recognised characters (parser.rs line 13). -/
def bfChars : List Char := ['>', '<', '+', '-', '.', ',', '[', ']']

/-- Parser.parse from parser.rs: filter the source down to the eight
recognised characters, preserving order. -/
def Parser.parse (src : List Char) : List Char :=
  src.filter (fun c => bfChars.contains c)

/-- Parser::count_contigous: index of the first element differing from `c`
(the length of the whole slice when every element equals `c`), i.e. the
length of the leading run of `c`. -/
def count_contigous : List Char → Char → Nat
  | [], _ => 0
  | x :: rest, c => if x = c then count_contigous rest c + 1 else 0

/-- Main loop of Parser::parse_to_bytecode (parser.rs lines 31-60) over the
already-filtered program: brackets and I/O lower to one opcode each; the
four run-length-compressible characters consume their maximal leading run
(`index += occ - 1; index += 1`); anything else lowers to `Nop`.  The
`while index < prog_size` loop is embedded with a fuel argument (each
iteration consumes at least one character, so fuel equal to the program
length is exact). -/
def parse_to_bytecode_go : Nat → List Char → List ByteCode
  | 0, _ => []
  | _, [] => []
  | fuel + 1, c :: rest =>
    if c = '[' then .JZ :: parse_to_bytecode_go fuel rest
    else if c = ']' then .JNZ :: parse_to_bytecode_go fuel rest
    else if c = '.' then .Write :: parse_to_bytecode_go fuel rest
    else if c = ',' then .Read :: parse_to_bytecode_go fuel rest
    else if c = '+' then
      .DataIncr (count_contigous (c :: rest) '+') ::
        parse_to_bytecode_go fuel (rest.drop (count_contigous (c :: rest) '+' - 1))
    else if c = '-' then
      .DataDecr (count_contigous (c :: rest) '-') ::
        parse_to_bytecode_go fuel (rest.drop (count_contigous (c :: rest) '-' - 1))
    else if c = '>' then
      .DataPointerIncr (count_contigous (c :: rest) '>') ::
        parse_to_bytecode_go fuel (rest.drop (count_contigous (c :: rest) '>' - 1))
    else if c = '<' then
      .DataPointerDecr (count_contigous (c :: rest) '<') ::
        parse_to_bytecode_go fuel (rest.drop (count_contigous (c :: rest) '<' - 1))
    else .Nop :: parse_to_bytecode_go fuel rest

/-- Parser.parse_to_bytecode: lex, then lower. -/
def Parser.parse_to_bytecode (src : List Char) : List ByteCode :=
  parse_to_bytecode_go (Parser.parse src).length (Parser.parse src)

/-! ## The peephole optimizer (bytecode_bf.rs lines 60-117) -/

/-- ByteCodeProgram::is_set_zero: the window starts with
`JZ, DataIncr _ | DataDecr _, JNZ`. -/
def is_set_zero : List ByteCode → Bool
  | .JZ :: .DataIncr _ :: .JNZ :: _ => true
  | .JZ :: .DataDecr _ :: .JNZ :: _ => true
  | _ => false

/-- ByteCodeProgram::is_move_until_zero: the window starts with
`JZ, DataPointerIncr x | DataPointerDecr x, JNZ`. -/
def is_move_until_zero : List ByteCode → Option Change
  | .JZ :: .DataPointerIncr x :: .JNZ :: _ => some (.Incr x)
  | .JZ :: .DataPointerDecr x :: .JNZ :: _ => some (.Decr x)
  | _ => none

/-- Main loop of ByteCodeProgram::opt_pass_1: single left-to-right pass; a
matching three-opcode window is consumed (`index += 2` plus the trailing
`index += 1`) and replaced by `SETZERO` or `MoveInStepUntilZero`; anything
else is copied.  The `while index < prog_size` loop is embedded with a
fuel argument (each iteration consumes at least one opcode, so fuel equal
to the program length is exact). -/
def optGo : Nat → List ByteCode → List ByteCode
  | 0, _ => []
  | _, [] => []
  | fuel + 1, .JZ :: rest =>
    if is_set_zero (.JZ :: rest) then .SETZERO :: optGo fuel (rest.drop 2)
    else
      match is_move_until_zero (.JZ :: rest) with
      | some chng => .MoveInStepUntilZero chng :: optGo fuel (rest.drop 2)
      | none => .JZ :: optGo fuel rest
  | fuel + 1, i :: rest => i :: optGo fuel rest

/-- ByteCodeProgram.opt_pass_1 over the instruction list. -/
def opt_pass_1 (l : List ByteCode) : List ByteCode :=
  optGo l.length l

/-! ## The bytecode interpreter (bytecode_bf.rs lines 118-178) -/

/-- One opcode of `ByteCodeProgram::eval`'s match (bytecode_bf.rs lines
125-173).  `DataPointerDecr` clamps (`data_counter -= x.min(data_counter)`);
`DataIncr` wraps (`(v as usize + x) as u8`); `DataDecr` saturates at zero
(`(v as usize - x.min(v as usize)) as u8`); `MoveInStepUntilZero` is the
inner `while memory[dc] != 0` loop, modelled one iteration per step by
staying at the same `pc` while the cell is nonzero; its `Decr` arm performs
an unchecked `usize` subtraction (panic on underflow); `Nop` falls into the
`_ => unreachable!()` arm. -/
def bcStepInstr (jt : List Nat) (pc : Nat) (i : ByteCode) (st : MState) :
    StepRes :=
  match i with
  | .DataPointerIncr x => .cont (pc + 1) { st with dc := st.dc + x }
  | .DataPointerDecr x => .cont (pc + 1) { st with dc := st.dc - min x st.dc }
  | .DataIncr x =>
    match st.mem.get? st.dc with
    | some v => .cont (pc + 1) { st with mem := st.mem.set st.dc ((v + x) % 256) }
    | none => .panic
  | .DataDecr x =>
    match st.mem.get? st.dc with
    | some v => .cont (pc + 1) { st with mem := st.mem.set st.dc (v - min x v) }
    | none => .panic
  | .Write =>
    match st.mem.get? st.dc with
    | some v => .cont (pc + 1) { st with out := st.out ++ utf8OfByte v }
    | none => .panic
  | .Read =>
    match st.inp with
    | [] => .panic
    | b :: r =>
      match st.mem.get? st.dc with
      | some _ => .cont (pc + 1) { st with mem := st.mem.set st.dc (b % 256), inp := r }
      | none => .panic
  | .JZ =>
    match st.mem.get? st.dc with
    | some v => .cont ((if v = 0 then jt.getD pc 0 else pc) + 1) st
    | none => .panic
  | .JNZ =>
    match st.mem.get? st.dc with
    | some v => .cont ((if v = 0 then pc else jt.getD pc 0) + 1) st
    | none => .panic
  | .SETZERO =>
    match st.mem.get? st.dc with
    | some _ => .cont (pc + 1) { st with mem := st.mem.set st.dc 0 }
    | none => .panic
  | .MoveInStepUntilZero chng =>
    match st.mem.get? st.dc with
    | some v =>
      if v = 0 then .cont (pc + 1) st
      else
        match chng with
        | .Incr x => .cont pc { st with dc := st.dc + x }
        | .Decr x => if x ≤ st.dc then .cont pc { st with dc := st.dc - x } else .panic
    | none => .panic
  | .Nop => .panic

/-- Main loop of `ByteCodeProgram::eval`. -/
def bcRunGo (prog : List ByteCode) (jt : List Nat) :
    Nat → Nat → MState → RunRes
  | fuel, pc, st =>
    match prog.get? pc with
    | none => .ok st
    | some i =>
      match fuel with
      | 0 => .outOfFuel
      | f + 1 =>
        match bcStepInstr jt pc i st with
        | .cont pc2 st2 => bcRunGo prog jt f pc2 st2
        | .panic => .panic

/-- ByteCodeProgram.eval embedded as `ByteCodeProgram.exec` (bytecode_bf.rs
lines 118-178): zeroed tape, compute the jump table, run, then
`println!("")` appends 10. -/
def ByteCodeProgram.exec (prog : List ByteCode) (inp : List Nat) (fuel : Nat) :
    RunRes :=
  match ByteCodeProgram.compute_jumptable prog with
  | none => .panic
  | some jt =>
    match bcRunGo prog jt fuel 0 ⟨List.replicate MEMORY_SIZE 0, 0, [], inp⟩ with
    | .ok st => .ok { st with out := st.out ++ [10] }
    | r => r

/-- The bytecode-interpreter engine as exercised by the repository's tests:
`Parser::parse_to_bytecode`, `opt_pass_1`, then `eval`. -/
def bytecodeEngineExec (src : List Char) (inp : List Nat) (fuel : Nat) :
    RunRes :=
  ByteCodeProgram.exec (opt_pass_1 (Parser.parse_to_bytecode src)) inp fuel

/-- The tree-walk engine: `Parser::parse(code).eval()`. -/
def treeWalkEngineExec (src : List Char) (inp : List Nat) (fuel : Nat) :
    RunRes :=
  Program.exec (Parser.parse src) inp fuel

/-! ## The direct native emitter over bytecode (optbytecode_jit.rs)

`BytecodeJit::parse_and_run` lowers the source with
`Parser::parse_to_bytecode` (line 24) — it never calls `opt_pass_1` — and
then emits one fixed x86-64 fragment per opcode with `dynasm!`.  We embed
the opcode sequence the emission loop consumes, and the per-opcode
emission at the granularity of the `dynasm!` blocks of the source. -/

/-- The opcode sequence `BytecodeJit::parse_and_run` iterates over
(optbytecode_jit.rs line 24 followed by line 36). -/
def BytecodeJit.consumed (src : List Char) : List ByteCode :=
  Parser.parse_to_bytecode src

/-- X86Frag: one `dynasm!` block emitted by `BytecodeJit::parse_and_run`
for a single opcode (optbytecode_jit.rs lines 36-150).  `scanCellLoop`
transcribes the emitted loop `start: cmp byte [r13],0; jz end;
add/sub byte [r13], x; jmp start; end:` — it modifies the cell, not the
cursor. -/
inductive X86Frag
  | addCur (n : Nat)
  | subCur (n : Nat)
  | addCell (n : Nat)
  | subCell (n : Nat)
  | jzOpen
  | jnzClose
  | setZeroCell
  | scanCellLoop (chng : Change)
  | writeSyscall
  | readSyscall
deriving DecidableEq

/-- One arm of the emission match: the fragments pushed for the opcode and
the updated depth of `open_bracket_stack`; `none` models the panics
(`"Overflow"` for a cell delta above `u8::MAX`, `"Not matching ]"` when the
bracket stack is empty).  `Nop` emits nothing (line 147). -/
def BytecodeJit.emitInstr (i : ByteCode) (stack : Nat) :
    Option (List X86Frag × Nat) :=
  match i with
  | .DataPointerIncr d => some ([.addCur d], stack)
  | .DataPointerDecr d => some ([.subCur d], stack)
  | .DataIncr d => if d > 255 then none else some ([.addCell d], stack)
  | .DataDecr d => if d > 255 then none else some ([.subCell d], stack)
  | .JZ => some ([.jzOpen], stack + 1)
  | .JNZ =>
    match stack with
    | 0 => none
    | s + 1 => some ([.jnzClose], s)
  | .SETZERO => some ([.setZeroCell], stack)
  | .MoveInStepUntilZero chng => some ([.scanCellLoop chng], stack)
  | .Write => some ([.writeSyscall], stack)
  | .Read => some ([.readSyscall], stack)
  | .Nop => some ([], stack)

/-- Emission loop of `BytecodeJit::parse_and_run` over the consumed
opcodes. -/
def BytecodeJit.emitGo : List ByteCode → Nat → Option (List X86Frag)
  | [], _ => some []
  | i :: rest, stack =>
    match BytecodeJit.emitInstr i stack with
    | none => none
    | some (fs, s2) => (BytecodeJit.emitGo rest s2).map (fs ++ ·)

/-- Body fragments emitted for a source string (between the `mov r13` of
the prologue and the final `ret`). -/
def BytecodeJit.emitted (src : List Char) : Option (List X86Frag) :=
  BytecodeJit.emitGo (BytecodeJit.consumed src) 0

/-! ## The IR-based engine (llvm_jit.rs)

`LlvmJit::parse_and_run` lowers the source with `Parser::parse_to_bytecode`
(line 319) — again without `opt_pass_1` — and `jit` builds one IR fragment
per opcode (`jit_instr`).  We embed the meaning of the generated IR as an
interpreter: per opcode the IR's evident semantics (64-bit wrap-around
cursor arithmetic from `build_int_add`/`build_int_sub` on `i64`, 8-bit
wrap-around cell arithmetic on `i8`, `putchar`/`getchar` for I/O), with
the bracket blocks paired by the `matching_blocks` stack.  An in-bounds
`gep` outside the 30000-byte tape is undefined behaviour, modelled as
`panic`. -/

/-- The opcode sequence `LlvmJit::parse_and_run` passes to `jit`
(llvm_jit.rs lines 319 and 325). -/
def LlvmJit.consumed (src : List Char) : List ByteCode :=
  Parser.parse_to_bytecode src

/-- Stack pairing of the bracket blocks (`matching_blocks` in `jit_instr`):
each `JNZ` pops the most recent open `JZ`; popping an empty stack is the
`expect("Invalid program")` panic; a delta above `u8::MAX` is the
`panic!("Overflow")` of lines 77-79; leftover unterminated blocks at the
end leave the module without a valid continuation block, modelled as
failure.  The result is a jump table in the same index-to-index format the
interpreters use.  `MoveInStepUntilZero` expands into its own balanced
`JZ`/shift/`JNZ` triple (lines 202-230), so it leaves the stack unchanged. -/
def LlvmJit.pairGo : List ByteCode → Nat → List Nat → List Nat →
    Option (List Nat)
  | [], _, stack, table => if stack = [] then some table else none
  | i :: rest, pc, stack, table =>
    match i with
    | .JZ => LlvmJit.pairGo rest (pc + 1) (pc :: stack) table
    | .JNZ =>
      match stack with
      | [] => none
      | j :: s2 => LlvmJit.pairGo rest (pc + 1) s2 ((table.set j pc).set pc j)
    | .DataIncr d => if d > 255 then none else LlvmJit.pairGo rest (pc + 1) stack table
    | .DataDecr d => if d > 255 then none else LlvmJit.pairGo rest (pc + 1) stack table
    | _ => LlvmJit.pairGo rest (pc + 1) stack table

/-- TWO64: the modulus of `i64`/`usize` wrap-around arithmetic. -/
def TWO64 : Nat := 18446744073709551616

/-- Semantics of the IR `jit_instr` emits for one opcode (llvm_jit.rs lines
55-231).  `Nop` emits nothing; cursor arithmetic wraps modulo `2^64` and is
never clamped; cell arithmetic wraps modulo 256 in both directions;
`MoveInStepUntilZero` behaves as its expanded `JZ`/shift/`JNZ` loop,
modelled one iteration per step. -/
def llvmStepInstr (jt : List Nat) (pc : Nat) (i : ByteCode) (st : MState) :
    StepRes :=
  match i with
  | .Nop => .cont (pc + 1) st
  | .DataPointerIncr x => .cont (pc + 1) { st with dc := (st.dc + x) % TWO64 }
  | .DataPointerDecr x =>
    .cont (pc + 1) { st with dc := (st.dc + (TWO64 - x % TWO64)) % TWO64 }
  | .DataIncr x =>
    match st.mem.get? st.dc with
    | some v => .cont (pc + 1) { st with mem := st.mem.set st.dc ((v + x) % 256) }
    | none => .panic
  | .DataDecr x =>
    match st.mem.get? st.dc with
    | some v =>
      .cont (pc + 1) { st with mem := st.mem.set st.dc ((v + (256 - x % 256)) % 256) }
    | none => .panic
  | .Write =>
    match st.mem.get? st.dc with
    | some v => .cont (pc + 1) { st with out := st.out ++ utf8OfByte v }
    | none => .panic
  | .Read =>
    match st.inp with
    | [] => .panic
    | b :: r =>
      match st.mem.get? st.dc with
      | some _ => .cont (pc + 1) { st with mem := st.mem.set st.dc (b % 256), inp := r }
      | none => .panic
  | .JZ =>
    match st.mem.get? st.dc with
    | some v => .cont ((if v = 0 then jt.getD pc 0 else pc) + 1) st
    | none => .panic
  | .JNZ =>
    match st.mem.get? st.dc with
    | some v => .cont ((if v = 0 then pc else jt.getD pc 0) + 1) st
    | none => .panic
  | .SETZERO =>
    match st.mem.get? st.dc with
    | some _ => .cont (pc + 1) { st with mem := st.mem.set st.dc 0 }
    | none => .panic
  | .MoveInStepUntilZero chng =>
    match st.mem.get? st.dc with
    | some v =>
      if v = 0 then .cont (pc + 1) st
      else
        match chng with
        | .Incr x => .cont pc { st with dc := (st.dc + x) % TWO64 }
        | .Decr x => .cont pc { st with dc := (st.dc + (TWO64 - x % TWO64)) % TWO64 }
    | none => .panic
-- Caveat on `Write`: `jit_instr` widens the cell with `build_int_cast`
-- (i8 to i32, which sign-extends) before calling the host `putchar`
-- trampoline, whose `char::from_u32_unchecked` is only defined for values
-- below 128; the `utf8OfByte` model above is exact for cells below 128 and
-- no theorem here relies on the IR engine's output for larger cells.

/-- Run loop of the function `LlvmJit::jit` builds. -/
def llvmRunGo (prog : List ByteCode) (jt : List Nat) :
    Nat → Nat → MState → RunRes
  | fuel, pc, st =>
    match prog.get? pc with
    | none => .ok st
    | some i =>
      match fuel with
      | 0 => .outOfFuel
      | f + 1 =>
        match llvmStepInstr jt pc i st with
        | .cont pc2 st2 => llvmRunGo prog jt f pc2 st2
        | .panic => .panic

/-- Executable model of `LlvmJit::jit`: a 30000-byte zero-initialised tape,
cursor 0, the generated function run to completion.  Note that neither
`jit` nor `parse_and_run` prints anything after the call — there is no
trailing `println!("")` in llvm_jit.rs. -/
def LlvmJit.jitExec (instructions : List ByteCode) (inp : List Nat)
    (fuel : Nat) : RunRes :=
  match LlvmJit.pairGo instructions 0 []
      (List.replicate instructions.length 0) with
  | none => .panic
  | some jt => llvmRunGo instructions jt fuel 0 ⟨List.replicate MEMORY_SIZE 0, 0, [], inp⟩

/-- The IR-based engine: `LlvmJit::parse_and_run`. -/
def llvmEngineExec (src : List Char) (inp : List Nat) (fuel : Nat) : RunRes :=
  LlvmJit.jitExec (LlvmJit.consumed src) inp fuel

/-! ## The direct native emitter over characters (simple_jit.rs, with
jit_utils.rs)

`SimpleJit::parse_and_run` consumes `Parser::parse(src)` directly and
emits literal x86-64 bytes through `CodeEmitter`, patching the 4-byte
forward displacement of each `[` at its matching `]`.  We embed the byte
emission exactly. -/

/-- compute_relative_32bit_offset from jit_utils.rs: `to - from` as a
wrapping two's-complement `u32`; panics (`none`) when the distance cannot
be represented. -/
def compute_relative_32bit_offset (jump_from jump_to : Nat) : Option Nat :=
  if jump_from ≤ jump_to then
    let diff := jump_to - jump_from
    if diff > 4294967295 then none else some diff
  else
    let diff := jump_from - jump_to
    if diff > 4294967296 then none
    else some ((4294967296 - diff % 4294967296) % 4294967296)

/-- Little-endian byte encoding of a `u32`, as `CodeEmitter::emit_uint32`
pushes it. -/
def uint32LEBytes (v : Nat) : List Nat :=
  [v % 256, v / 256 % 256, v / 65536 % 256, v / 16777216 % 256]

/-- Little-endian byte encoding of a `u64`
(`CodeEmitter::emit_uint64`). -/
def uint64LEBytes (v : Nat) : List Nat :=
  uint32LEBytes (v % 4294967296) ++ uint32LEBytes (v / 4294967296 % 4294967296)

/-- CodeEmitter::replace_uint32_at_offset: overwrite four bytes in the
emitted buffer; `none` models the `panic!("offset invalid")` bounds
check. -/
def replace_uint32_at_offset (code : List Nat) (offset v : Nat) :
    Option (List Nat) :=
  if offset + 3 < code.length then
    some ((((code.set offset (v % 256)).set (offset + 1) (v / 256 % 256)).set
      (offset + 2) (v / 65536 % 256)).set (offset + 3) (v / 16777216 % 256))
  else none

/-- Emission loop of `SimpleJit::parse_and_run` (simple_jit.rs lines
30-104): `code` is the buffer built so far (including the 10-byte
prologue), `stack` is `open_bracket_stack`.  `none` models the panics
(`"Unmatching closing ]"`, invalid character, unrepresentable
displacement). -/
def SimpleJit.emitGo : List Char → List Nat → List Nat →
    Option (List Nat × List Nat)
  | [], code, stack => some (code, stack)
  | c :: rest, code, stack =>
    if c = '>' then SimpleJit.emitGo rest (code ++ [0x49, 0xFF, 0xC5]) stack
    else if c = '<' then SimpleJit.emitGo rest (code ++ [0x49, 0xFF, 0xCD]) stack
    else if c = '+' then
      SimpleJit.emitGo rest (code ++ [0x41, 0x80, 0x45, 0x00, 0x01]) stack
    else if c = '-' then
      SimpleJit.emitGo rest (code ++ [0x41, 0x80, 0x6D, 0x00, 0x01]) stack
    else if c = '.' then
      SimpleJit.emitGo rest
        (code ++ [0x48, 0xC7, 0xC0, 0x01, 0x00, 0x00, 0x00] ++
          [0x48, 0xC7, 0xC7, 0x01, 0x00, 0x00, 0x00] ++ [0x4C, 0x89, 0xEE] ++
          [0x48, 0xC7, 0xC2, 0x01, 0x00, 0x00, 0x00] ++ [0x0F, 0x05]) stack
    else if c = ',' then
      SimpleJit.emitGo rest
        (code ++ [0x48, 0xC7, 0xC0, 0x00, 0x00, 0x00, 0x00] ++
          [0x48, 0xC7, 0xC7, 0x00, 0x00, 0x00, 0x00] ++ [0x4C, 0x89, 0xEE] ++
          [0x48, 0xC7, 0xC2, 0x01, 0x00, 0x00, 0x00] ++ [0x0F, 0x05]) stack
    else if c = '[' then
      let code1 := code ++ [0x41, 0x80, 0x7d, 0x00, 0x00]
      SimpleJit.emitGo rest (code1 ++ [0x0F, 0x84] ++ uint32LEBytes 0)
        (code1.length :: stack)
    else if c = ']' then
      match stack with
      | [] => none
      | last_open_bracket :: s2 =>
        let code1 := code ++ [0x41, 0x80, 0x7d, 0x00, 0x00]
        match compute_relative_32bit_offset (code1.length + 6)
            (last_open_bracket + 6) with
        | none => none
        | some backOff =>
          let code2 := code1 ++ [0x0F, 0x85] ++ uint32LEBytes backOff
          match compute_relative_32bit_offset (last_open_bracket + 6)
              code2.length with
          | none => none
          | some fwdOff =>
            match replace_uint32_at_offset code2 (last_open_bracket + 2) fwdOff with
            | none => none
            | some code3 => SimpleJit.emitGo rest code3 s2
    else none

/-- Full emitted code of `SimpleJit::parse_and_run` for a given tape base
address: the `movabs` prologue, the per-character body, the final `ret`. -/
def SimpleJit.emittedCode (addr : Nat) (src : List Char) : Option (List Nat) :=
  (SimpleJit.emitGo (Parser.parse src) ([0x49, 0xBD] ++ uint64LEBytes addr) []).map
    (fun p => p.1 ++ [0xC3])

/-! ## Auxiliary notions used by the statements -/

/-- The eight core opcodes the lowerer can emit for recognised characters
(everything except `Nop` and the two optimiser-introduced opcodes). -/
def isCoreOpcode : ByteCode → Bool
  | .DataPointerIncr _ => true
  | .DataPointerDecr _ => true
  | .DataIncr _ => true
  | .DataDecr _ => true
  | .Write => true
  | .Read => true
  | .JZ => true
  | .JNZ => true
  | _ => false

/-- BCTerminates: some fuel suffices for `ByteCodeProgram::eval` to finish
(normally or by panicking) rather than running out of fuel; i.e. the source
evaluation, which has no fuel, terminates. -/
def BCTerminates (prog : List ByteCode) (inp : List Nat) : Prop :=
  ∃ fuel, ByteCodeProgram.exec prog inp fuel ≠ .outOfFuel

/-- Bytecode image of the source `+[++]`: a set-zero-shaped loop whose body
increments by 2. -/
def divergeProg : List ByteCode := [.DataIncr 1, .JZ, .DataIncr 2, .JNZ]

/-- Jump table of `divergeProg`. -/
def divergeJt : List Nat := [0, 3, 0, 1]

/-- State of the `divergeProg` loop: cell 0 holds `v`, everything else is
untouched. -/
def oddSt (v : Nat) : MState :=
  ⟨v :: List.replicate 29999 0, 0, [], []⟩

/-- Position `i` of `prog` holds an opener. -/
def opAtB {α : Type} (isOp : α → Bool) (prog : List α) (i : Nat) : Bool :=
  match prog.get? i with
  | some a => isOp a
  | none => false

/-- Index of the partner the seek loop finds for an opener at `i`. -/
def matchIdx {α : Type} (isOp isCl : α → Bool) (prog : List α) (i : Nat) :
    Option Nat :=
  (seekAux isOp isCl (prog.drop (i + 1)) 1).map (i + 1 + ·)

/-- Bracket-depth sum of a list. -/
def dsum {α : Type} (isOp isCl : α → Bool) (l : List α) : Int :=
  (l.map (deltaB isOp isCl)).sum

/-! # Theorems -/

/-! ## Helper lemmas for symbolic runs of the bytecode interpreter -/

/-- Unfold one fueled step of the bytecode run loop at a known opcode. -/
theorem bcRunGo_step (prog : List ByteCode) (jt : List Nat) (f pc : Nat)
    (st : MState) (i : ByteCode) (hi : prog.get? pc = some i) :
    bcRunGo prog jt (f + 1) pc st =
      match bcStepInstr jt pc i st with
      | .cont pc2 st2 => bcRunGo prog jt f pc2 st2
      | .panic => .panic := by
  rw [bcRunGo, hi]

/-- The run loop reports `outOfFuel` at fuel 0 while the program counter is
still in range. -/
theorem bcRunGo_zero (prog : List ByteCode) (jt : List Nat) (pc : Nat)
    (st : MState) (i : ByteCode) (hi : prog.get? pc = some i) :
    bcRunGo prog jt 0 pc st = .outOfFuel := by
  rw [bcRunGo, hi]

/-! ## Bracket-matching theory for the jump resolver (C5, C6)

Throughout, `dsum isOp isCl (l.take k)` plays the role of the bracket depth
of the length-`k` prefix. -/

theorem dsum_nil {α : Type} (isOp isCl : α → Bool) :
    dsum isOp isCl ([] : List α) = 0 := rfl

theorem dsum_cons {α : Type} (isOp isCl : α → Bool) (a : α) (l : List α) :
    dsum isOp isCl (a :: l) = deltaB isOp isCl a + dsum isOp isCl l := by
  simp [dsum]

theorem dsum_append {α : Type} (isOp isCl : α → Bool) (l1 l2 : List α) :
    dsum isOp isCl (l1 ++ l2) = dsum isOp isCl l1 + dsum isOp isCl l2 := by
  simp [dsum]

theorem deltaB_le_one {α : Type} (isOp isCl : α → Bool) (a : α) :
    deltaB isOp isCl a ≤ 1 := by
  unfold deltaB
  split
  · omega
  · split <;> omega

theorem neg_one_le_deltaB {α : Type} (isOp isCl : α → Bool) (a : α) :
    -1 ≤ deltaB isOp isCl a := by
  unfold deltaB
  split
  · omega
  · split <;> omega

theorem deltaB_of_isOp {α : Type} (isOp isCl : α → Bool) {a : α}
    (h : isOp a = true) : deltaB isOp isCl a = 1 := by
  simp [deltaB, h]

theorem isOp_of_deltaB_pos {α : Type} (isOp isCl : α → Bool) {a : α}
    (h : 0 < deltaB isOp isCl a) : isOp a = true := by
  by_cases h1 : isOp a = true
  · exact h1
  · exfalso
    by_cases h2 : isCl a = true <;> simp [deltaB, h1, h2] at h

theorem dsum_take_succ {α : Type} (isOp isCl : α → Bool) (l : List α)
    (i : Nat) (a : α) (ha : l.get? i = some a) :
    dsum isOp isCl (l.take (i + 1)) =
      dsum isOp isCl (l.take i) + deltaB isOp isCl a := by
  rw [List.get?_eq_getElem?] at ha
  rw [List.take_succ, ha, dsum_append]
  simp [dsum_cons, dsum_nil]

theorem dsum_take_succ_ge {α : Type} (isOp isCl : α → Bool) (l : List α)
    (i : Nat) :
    dsum isOp isCl (l.take i) - 1 ≤ dsum isOp isCl (l.take (i + 1)) := by
  by_cases h : i < l.length
  · obtain ⟨a, ha⟩ : ∃ a, l.get? i = some a :=
      ⟨l.get ⟨i, h⟩, List.get?_eq_some.mpr ⟨h, rfl⟩⟩
    rw [dsum_take_succ isOp isCl l i a ha]
    have := neg_one_le_deltaB isOp isCl a
    omega
  · rw [List.take_of_length_le (by omega), List.take_of_length_le (by omega)]
    omega

theorem dsum_take_succ_le {α : Type} (isOp isCl : α → Bool) (l : List α)
    (i : Nat) :
    dsum isOp isCl (l.take (i + 1)) ≤ dsum isOp isCl (l.take i) + 1 := by
  by_cases h : i < l.length
  · obtain ⟨a, ha⟩ : ∃ a, l.get? i = some a :=
      ⟨l.get ⟨i, h⟩, List.get?_eq_some.mpr ⟨h, rfl⟩⟩
    rw [dsum_take_succ isOp isCl l i a ha]
    have := deltaB_le_one isOp isCl a
    omega
  · rw [List.take_of_length_le (by omega), List.take_of_length_le (by omega)]
    omega

theorem dsum_drop_take {α : Type} (isOp isCl : α → Bool) (l : List α)
    (j m : Nat) :
    dsum isOp isCl ((l.drop j).take m) =
      dsum isOp isCl (l.take (j + m)) - dsum isOp isCl (l.take j) := by
  rw [List.take_add, dsum_append]
  ring

/-- Facts extracted from a successful balance check with start depth `d`:
every prefix keeps the running depth nonnegative, and the total depth
returns to zero. -/
theorem balGo_facts {α : Type} (isOp isCl : α → Bool) :
    ∀ (l : List α) (d : Int), 0 ≤ d → balGo isOp isCl l d = true →
    (∀ k, 0 ≤ d + dsum isOp isCl (l.take k)) ∧ d + dsum isOp isCl l = 0 := by
  intro l
  induction l with
  | nil =>
    intro d hd hb
    simp only [balGo, beq_iff_eq] at hb
    constructor
    · intro k
      simp only [List.take_nil, dsum_nil]
      omega
    · simp only [dsum_nil]
      omega
  | cons a rest ih =>
    intro d hd hb
    simp only [balGo, Bool.and_eq_true, decide_eq_true_eq] at hb
    obtain ⟨h1, h2⟩ := hb
    have ihr := ih (d + deltaB isOp isCl a) h1 h2
    constructor
    · intro k
      match k with
      | 0 =>
        simp only [List.take_zero, dsum_nil]
        omega
      | k + 1 =>
        rw [List.take_succ_cons, dsum_cons]
        have := ihr.1 k
        omega
    · rw [dsum_cons]
      have := ihr.2
      omega

/-- Soundness of the seek loop: a successful seek lands strictly inside the
suffix, on a closer, at the first offset where the running nesting (which
starts at `n`) reaches zero. -/
theorem seekAux_sound {α : Type} (isOp isCl : α → Bool)
    (hdisj : ∀ a, isOp a = true → isCl a = true → False) :
    ∀ (l : List α) (n o : Nat), 1 ≤ n →
    seekAux isOp isCl l n = some o →
    o < l.length ∧
    (∃ b, l.get? o = some b ∧ isCl b = true) ∧
    dsum isOp isCl (l.take (o + 1)) = -(n : Int) ∧
    (∀ k, k ≤ o → -(n : Int) < dsum isOp isCl (l.take k)) := by
  intro l
  induction l with
  | nil =>
    intro n o hn hs
    exact absurd hs (by simp [seekAux])
  | cons a rest ih =>
    intro n o hn hs
    simp only [seekAux] at hs
    set m := if isCl a then n - 1 else if isOp a then n + 1 else n with hm
    have hδ : (m : Int) = (n : Int) + deltaB isOp isCl a := by
      by_cases h1 : isCl a = true
      · have hop : isOp a = false := by
          rcases Bool.eq_false_or_eq_true (isOp a) with h | h
          · exact absurd (hdisj a h h1) (by simp)
          · exact h
        rw [hm, if_pos h1]
        simp only [deltaB, hop, Bool.false_eq_true, if_false, h1, if_true]
        omega
      · by_cases h2 : isOp a = true
        · rw [hm, if_neg h1, if_pos h2]
          simp only [deltaB, h2, if_true]
          omega
        · rw [hm, if_neg h1, if_neg h2]
          simp only [deltaB, h2, if_false, h1]
          simp only [Bool.false_eq_true, if_false]
          omega
    by_cases hz : m = 0
    · rw [if_pos hz] at hs
      cases hs
      have hcln : isCl a = true ∧ n = 1 := by
        by_cases h1 : isCl a = true
        · rw [hm, if_pos h1] at hz
          exact ⟨h1, by omega⟩
        · exfalso
          by_cases h2 : isOp a = true
          · rw [hm, if_neg h1, if_pos h2] at hz
            omega
          · rw [hm, if_neg h1, if_neg h2] at hz
            omega
      have hop : isOp a = false := by
        rcases Bool.eq_false_or_eq_true (isOp a) with h | h
        · exact absurd (hdisj a h hcln.1) (by simp)
        · exact h
      refine ⟨by simp, ⟨a, rfl, hcln.1⟩, ?_, ?_⟩
      · show dsum isOp isCl ((a :: rest).take 1) = -(n : Int)
        rw [show (a :: rest).take 1 = [a] from rfl, dsum_cons, dsum_nil]
        simp only [deltaB, hop, Bool.false_eq_true, if_false, hcln.1, if_true]
        omega
      · intro k hk
        interval_cases k
        simp only [List.take_zero, dsum_nil]
        omega
    · rw [if_neg hz] at hs
      obtain ⟨o2, ho2, rfl⟩ := Option.map_eq_some'.mp hs
      obtain ⟨hlt, ⟨b, hb, hclb⟩, hsum, hpref⟩ := ih m o2 (by omega) ho2
      refine ⟨by simp; omega, ⟨b, by simpa using hb, hclb⟩, ?_, ?_⟩
      · rw [List.take_succ_cons, dsum_cons, hsum]
        omega
      · intro k hk
        match k with
        | 0 =>
          simp only [List.take_zero, dsum_nil]
          omega
        | k + 1 =>
          rw [List.take_succ_cons, dsum_cons]
          have := hpref k (by omega)
          omega

/-- Completeness of the seek loop: if some prefix of the suffix brings the
running nesting down to zero, the seek succeeds. -/
theorem seekAux_isSome {α : Type} (isOp isCl : α → Bool)
    (hdisj : ∀ a, isOp a = true → isCl a = true → False) :
    ∀ (l : List α) (n : Nat), 1 ≤ n →
    (∃ k, k < l.length ∧ dsum isOp isCl (l.take (k + 1)) = -(n : Int)) →
    (seekAux isOp isCl l n).isSome = true := by
  intro l
  induction l with
  | nil =>
    rintro n hn ⟨k, hk, _⟩
    simp at hk
  | cons a rest ih =>
    rintro n hn ⟨k, hk, hks⟩
    simp only [seekAux]
    set m := if isCl a then n - 1 else if isOp a then n + 1 else n with hm
    have hδ : (m : Int) = (n : Int) + deltaB isOp isCl a := by
      by_cases h1 : isCl a = true
      · have hop : isOp a = false := by
          rcases Bool.eq_false_or_eq_true (isOp a) with h | h
          · exact absurd (hdisj a h h1) (by simp)
          · exact h
        rw [hm, if_pos h1]
        simp only [deltaB, hop, Bool.false_eq_true, if_false, h1, if_true]
        omega
      · by_cases h2 : isOp a = true
        · rw [hm, if_neg h1, if_pos h2]
          simp only [deltaB, h2, if_true]
          omega
        · rw [hm, if_neg h1, if_neg h2]
          simp only [deltaB, h2, if_false, h1]
          simp only [Bool.false_eq_true, if_false]
          omega
    by_cases hz : m = 0
    · rw [if_pos hz]
      rfl
    · rw [if_neg hz]
      rw [Option.isSome_map']
      apply ih m (by omega)
      match k with
      | 0 =>
        exfalso
        rw [show (a :: rest).take 1 = [a] from rfl, dsum_cons, dsum_nil] at hks
        omega
      | k + 1 =>
        refine ⟨k, by simpa using hk, ?_⟩
        rw [List.take_succ_cons, dsum_cons] at hks
        omega

/-- Discrete intermediate-value fact, descending form: a sequence that
falls by at most one per step from above `t` to at most `t` hits `t`. -/
theorem exists_hit_of_descent (f : Nat → Int) :
    ∀ (M : Nat) (t : Int), (∀ m, m < M → f m - 1 ≤ f (m + 1)) →
    t < f 0 → f M ≤ t → ∃ m, m ≤ M ∧ f m = t := by
  intro M
  induction M with
  | zero =>
    intro t _ h0 hM
    omega
  | succ M ih =>
    intro t hstep h0 hM
    by_cases hle : f M ≤ t
    · obtain ⟨m, hm, hfm⟩ := ih t (fun m hm => hstep m (by omega)) h0 hle
      exact ⟨m, by omega, hfm⟩
    · have h1 := hstep M (by omega)
      exact ⟨M + 1, Nat.le_refl _, by omega⟩

/-- Discrete intermediate-value fact, ascending form. -/
theorem exists_hit_of_ascent (f : Nat → Int) :
    ∀ (M : Nat) (t : Int), (∀ m, m < M → f (m + 1) ≤ f m + 1) →
    f 0 ≤ t → t < f M → ∃ m, m ≤ M ∧ f m = t := by
  intro M
  induction M with
  | zero =>
    intro t _ h0 hM
    omega
  | succ M ih =>
    intro t hstep h0 hM
    by_cases hlt : t < f M
    · obtain ⟨m, hm, hfm⟩ := ih t (fun m hm => hstep m (by omega)) h0 hlt
      exact ⟨m, by omega, hfm⟩
    · have h1 := hstep M (by omega)
      exact ⟨M, by omega, by omega⟩

/-- Unpack `opAtB` into the underlying element. -/
theorem opAtB_elim {α : Type} (isOp : α → Bool) (prog : List α) (i : Nat)
    (h : opAtB isOp prog i = true) :
    ∃ a, prog.get? i = some a ∧ isOp a = true := by
  unfold opAtB at h
  cases hga : prog.get? i with
  | none =>
    rw [hga] at h
    exact absurd h (by simp)
  | some a =>
    rw [hga] at h
    exact ⟨a, rfl, h⟩

/-- In a balanced program every opener's seek succeeds: the depth is one
higher just after the opener and returns to zero at the end, so it must
fall back through the opener's depth somewhere. -/
theorem matchIdx_isSome {α : Type} (isOp isCl : α → Bool)
    (hdisj : ∀ a, isOp a = true → isCl a = true → False)
    (prog : List α) (hbal : BalancedB isOp isCl prog = true)
    (i : Nat) (hop : opAtB isOp prog i = true) :
    (matchIdx isOp isCl prog i).isSome = true := by
  obtain ⟨a, ha, hopa⟩ := opAtB_elim isOp prog i hop
  have hi : i < prog.length := (List.get?_eq_some.mp ha).1
  have hbal2 := balGo_facts isOp isCl prog 0 (le_refl 0) hbal
  have hD : ∀ k, 0 ≤ dsum isOp isCl (prog.take k) := by
    intro k
    have := hbal2.1 k
    omega
  have hT : dsum isOp isCl prog = 0 := by
    have := hbal2.2
    omega
  have hDi1 : dsum isOp isCl (prog.take (i + 1)) =
      dsum isOp isCl (prog.take i) + 1 := by
    rw [dsum_take_succ isOp isCl prog i a ha, deltaB_of_isOp isOp isCl hopa]
  have hM' : i + 1 + (prog.length - (i + 1)) = prog.length := by omega
  unfold matchIdx
  rw [Option.isSome_map']
  apply seekAux_isSome isOp isCl hdisj _ 1 (le_refl 1)
  obtain ⟨m, hmM, hfm⟩ := exists_hit_of_descent
    (fun m => dsum isOp isCl (prog.take (i + 1 + m)))
    (prog.length - (i + 1)) (dsum isOp isCl (prog.take i))
    (fun m hm => by
      have h := dsum_take_succ_ge isOp isCl prog (i + 1 + m)
      simp only []
      rw [show i + 1 + (m + 1) = i + 1 + m + 1 by omega]
      exact h)
    (by
      simp only [Nat.add_zero]
      omega)
    (by
      simp only [hM', List.take_length]
      have := hD i
      omega)
  have hm0 : m ≠ 0 := by
    intro hc
    subst hc
    simp only [Nat.add_zero] at hfm
    omega
  refine ⟨m - 1, ?_, ?_⟩
  · rw [List.length_drop]
    omega
  · rw [dsum_drop_take]
    rw [show i + 1 + (m - 1 + 1) = i + 1 + m by omega]
    omega

/-- Soundness facts for a successful match, phrased in terms of prefix
depths of the whole program: the partner lies strictly right of the opener,
holds a closer, restores the opener's depth just past itself, and every
position strictly between (and the partner itself) keeps the depth strictly
above the opener's. -/
theorem matchIdx_spec {α : Type} (isOp isCl : α → Bool)
    (hdisj : ∀ a, isOp a = true → isCl a = true → False)
    (prog : List α) (i j : Nat)
    (hop : opAtB isOp prog i = true)
    (hm : matchIdx isOp isCl prog i = some j) :
    i < j ∧ j < prog.length ∧
    (∃ b, prog.get? j = some b ∧ isCl b = true) ∧
    dsum isOp isCl (prog.take (j + 1)) = dsum isOp isCl (prog.take i) ∧
    (∀ k, i < k → k ≤ j →
      dsum isOp isCl (prog.take i) < dsum isOp isCl (prog.take k)) := by
  obtain ⟨a, ha, hopa⟩ := opAtB_elim isOp prog i hop
  have hDi1 : dsum isOp isCl (prog.take (i + 1)) =
      dsum isOp isCl (prog.take i) + 1 := by
    rw [dsum_take_succ isOp isCl prog i a ha, deltaB_of_isOp isOp isCl hopa]
  unfold matchIdx at hm
  obtain ⟨o, ho, hjo⟩ := Option.map_eq_some'.mp hm
  subst hjo
  obtain ⟨holt, ⟨b, hbo, hclb⟩, hsum, hpref⟩ :=
    seekAux_sound isOp isCl hdisj _ 1 o (le_refl 1) ho
  rw [List.length_drop] at holt
  have hjlen : i + 1 + o < prog.length := by omega
  refine ⟨by omega, hjlen, ⟨b, ?_, hclb⟩, ?_, ?_⟩
  · rw [List.get?_drop] at hbo
    exact hbo
  · rw [dsum_drop_take] at hsum
    rw [show i + 1 + (o + 1) = i + 1 + o + 1 by omega] at hsum
    omega
  · intro k hik hkj
    have := hpref (k - (i + 1)) (by omega)
    rw [dsum_drop_take] at this
    rw [show i + 1 + (k - (i + 1)) = k by omega] at this
    omega

/-- Two distinct openers never share a partner: the later opener sits
strictly inside the earlier pair, where the depth is strictly higher. -/
theorem matchIdx_inj {α : Type} (isOp isCl : α → Bool)
    (hdisj : ∀ a, isOp a = true → isCl a = true → False)
    (prog : List α) (i1 i2 j : Nat)
    (hop1 : opAtB isOp prog i1 = true) (hop2 : opAtB isOp prog i2 = true)
    (h1 : matchIdx isOp isCl prog i1 = some j)
    (h2 : matchIdx isOp isCl prog i2 = some j) : i1 = i2 := by
  obtain ⟨hlt1, _, _, hsum1, hpref1⟩ :=
    matchIdx_spec isOp isCl hdisj prog i1 j hop1 h1
  obtain ⟨hlt2, _, _, hsum2, hpref2⟩ :=
    matchIdx_spec isOp isCl hdisj prog i2 j hop2 h2
  rcases Nat.lt_trichotomy i1 i2 with h | h | h
  · exfalso
    have := hpref1 i2 h (by omega)
    omega
  · exact h
  · exfalso
    have := hpref2 i1 h (by omega)
    omega

/-- Greatest index up to `n` satisfying a decidable predicate that holds
somewhere below `n`. -/
theorem exists_greatest_hit (P : Nat → Prop) [DecidablePred P] (n : Nat)
    (h : ∃ m, m ≤ n ∧ P m) :
    ∃ i, i ≤ n ∧ P i ∧ ∀ k, i < k → k ≤ n → ¬ P k := by
  obtain ⟨m, hmn, hPm⟩ := h
  exact ⟨Nat.findGreatest P n, Nat.findGreatest_le n,
    Nat.findGreatest_spec hmn hPm,
    fun k hik hkn => Nat.findGreatest_is_greatest hik hkn⟩

/-- Every closer in a balanced program is found by some opener's seek: take
the rightmost position at the closer's outside depth; it must be an opener,
and its seek stops exactly at the closer. -/
theorem closer_matched {α : Type} (isOp isCl : α → Bool)
    (hdisj : ∀ a, isOp a = true → isCl a = true → False)
    (prog : List α) (hbal : BalancedB isOp isCl prog = true)
    (j : Nat) (b : α) (hjb : prog.get? j = some b) (hclb : isCl b = true) :
    ∃ i, opAtB isOp prog i = true ∧ matchIdx isOp isCl prog i = some j := by
  have hj : j < prog.length := (List.get?_eq_some.mp hjb).1
  have hbal2 := balGo_facts isOp isCl prog 0 (le_refl 0) hbal
  have hD : ∀ k, 0 ≤ dsum isOp isCl (prog.take k) := by
    intro k
    have := hbal2.1 k
    omega
  have hopb : isOp b = false := by
    rcases Bool.eq_false_or_eq_true (isOp b) with h | h
    · exact absurd (hdisj b h hclb) (by simp)
    · exact h
  have hDj1 : dsum isOp isCl (prog.take (j + 1)) =
      dsum isOp isCl (prog.take j) - 1 := by
    rw [dsum_take_succ isOp isCl prog j b hjb]
    simp only [deltaB, hopb, Bool.false_eq_true, if_false, hclb, if_true]
    omega
  obtain ⟨i0, hi0j, hfi0⟩ := exists_hit_of_ascent
    (fun k => dsum isOp isCl (prog.take k)) j
    (dsum isOp isCl (prog.take (j + 1)))
    (fun m _ => dsum_take_succ_le isOp isCl prog m)
    (by
      simp only [List.take_zero, dsum_nil]
      exact hD (j + 1))
    (by
      show dsum isOp isCl (prog.take (j + 1)) < dsum isOp isCl (prog.take j)
      omega)
  have hfi0b : dsum isOp isCl (prog.take i0) =
      dsum isOp isCl (prog.take (j + 1)) := hfi0
  obtain ⟨i, hij, hPi, hmax⟩ := exists_greatest_hit
    (fun k => dsum isOp isCl (prog.take k) = dsum isOp isCl (prog.take (j + 1)))
    j ⟨i0, hi0j, hfi0b⟩
  have hilt : i < j := by
    rcases Nat.eq_or_lt_of_le hij with heq | h
    · exfalso
      rw [heq] at hPi
      omega
    · exact h
  have hgt : ∀ k, i < k → k ≤ j →
      dsum isOp isCl (prog.take (j + 1)) < dsum isOp isCl (prog.take k) := by
    intro k hik hkj
    by_contra hle
    push_neg at hle
    obtain ⟨m, hmM, hfm⟩ := exists_hit_of_ascent
      (fun m => dsum isOp isCl (prog.take (k + m))) (j - k)
      (dsum isOp isCl (prog.take (j + 1)))
      (fun m _ => by
        show dsum isOp isCl (prog.take (k + (m + 1))) ≤
          dsum isOp isCl (prog.take (k + m)) + 1
        rw [show k + (m + 1) = k + m + 1 by omega]
        exact dsum_take_succ_le isOp isCl prog (k + m))
      (by
        show dsum isOp isCl (prog.take (k + 0)) ≤
          dsum isOp isCl (prog.take (j + 1))
        rw [Nat.add_zero]
        exact hle)
      (by
        show dsum isOp isCl (prog.take (j + 1)) <
          dsum isOp isCl (prog.take (k + (j - k)))
        rw [show k + (j - k) = j by omega]
        omega)
    have hfmb : dsum isOp isCl (prog.take (k + m)) =
        dsum isOp isCl (prog.take (j + 1)) := hfm
    exact hmax (k + m) (by omega) (by omega) hfmb
  have hiop : ∃ a, prog.get? i = some a ∧ isOp a = true := by
    have hi1 := hgt (i + 1) (by omega) (by omega)
    have hilen : i < prog.length := by omega
    obtain ⟨a, ha⟩ : ∃ a, prog.get? i = some a :=
      ⟨prog.get ⟨i, hilen⟩, List.get?_eq_some.mpr ⟨hilen, rfl⟩⟩
    have hda := dsum_take_succ isOp isCl prog i a ha
    have hPib : dsum isOp isCl (prog.take i) =
        dsum isOp isCl (prog.take (j + 1)) := hPi
    have hpos : 0 < deltaB isOp isCl a := by omega
    exact ⟨a, ha, isOp_of_deltaB_pos isOp isCl hpos⟩
  obtain ⟨a, ha, hopa⟩ := hiop
  have hopAt : opAtB isOp prog i = true := by
    unfold opAtB
    rw [ha]
    exact hopa
  have hPib : dsum isOp isCl (prog.take i) =
      dsum isOp isCl (prog.take (j + 1)) := hPi
  have hsome := matchIdx_isSome isOp isCl hdisj prog hbal i hopAt
  obtain ⟨j2, hj2⟩ := Option.isSome_iff_exists.mp hsome
  obtain ⟨hlt2, hjlen2, _, hsum2, hpref2⟩ :=
    matchIdx_spec isOp isCl hdisj prog i j2 hopAt hj2
  have hjj : j2 = j := by
    rcases Nat.lt_trichotomy j2 j with h | h | h
    · exfalso
      have := hgt (j2 + 1) (by omega) (by omega)
      omega
    · exact h
    · exfalso
      have := hpref2 (j + 1) (by omega) (by omega)
      omega
  rw [hjj] at hj2
  exact ⟨i, hopAt, hj2⟩

/-- getD after setting the same index. -/
theorem getD_set_self (l : List Nat) (i v : Nat) (h : i < l.length) :
    (l.set i v).getD i 0 = v := by
  rw [List.getD_eq_get?, List.get?_set_eq_of_lt _ h]
  rfl

/-- getD after setting another index. -/
theorem getD_set_other (l : List Nat) (i j v : Nat) (h : i ≠ j) :
    (l.set i v).getD j 0 = l.getD j 0 := by
  rw [List.getD_eq_get?, List.getD_eq_get?, List.get?_set_ne _ _ h]

/-- Unpack `prog.drop pc = a :: suffix`. -/
theorem drop_cons_facts {α : Type} (prog suffix : List α) (a : α) (pc : Nat)
    (h : prog.drop pc = a :: suffix) :
    prog.get? pc = some a ∧ prog.drop (pc + 1) = suffix ∧ pc < prog.length := by
  refine ⟨?_, ?_, ?_⟩
  · have h2 := List.get?_drop prog pc 0
    rw [h] at h2
    simpa using h2.symm
  · have h2 : prog.drop (pc + 1) = (prog.drop pc).drop 1 := by
      rw [List.drop_drop]
    rw [h2, h]
    rfl
  · have hl : (prog.drop pc).length = suffix.length + 1 := by
      rw [h]
      rfl
    rw [List.length_drop] at hl
    omega

/-- Characterisation of the table built by the scan from position `pc` on:
the scan succeeds, entries no remaining iteration writes are untouched, and
for every opener at or beyond `pc` the final table holds the pair in both
directions.  The write-once argument rests on `matchIdx_inj` and the
disjointness of openers and closers. -/
theorem cjtGo_spec {α : Type} (isOp isCl : α → Bool)
    (hdisj : ∀ a, isOp a = true → isCl a = true → False)
    (prog : List α) (hbal : BalancedB isOp isCl prog = true) :
    ∀ (suffix : List α) (pc : Nat) (table : List Nat),
      prog.drop pc = suffix →
      table.length = prog.length →
      ∃ t2, cjtGo isOp isCl prog suffix pc table = some t2 ∧
        t2.length = prog.length ∧
        (∀ j, (∀ i2, pc ≤ i2 → opAtB isOp prog i2 = true →
            i2 ≠ j ∧ matchIdx isOp isCl prog i2 ≠ some j) →
          t2.getD j 0 = table.getD j 0) ∧
        (∀ i2 j, pc ≤ i2 → opAtB isOp prog i2 = true →
          matchIdx isOp isCl prog i2 = some j →
          t2.getD i2 0 = j ∧ t2.getD j 0 = i2) := by
  intro suffix
  induction suffix with
  | nil =>
    intro pc table hdrop hlen
    refine ⟨table, rfl, hlen, fun j _ => rfl, ?_⟩
    intro i2 j hpc hop hm
    exfalso
    obtain ⟨a, ha, _⟩ := opAtB_elim isOp prog i2 hop
    have hi2 : i2 < prog.length := (List.get?_eq_some.mp ha).1
    have hle : prog.length ≤ pc := List.drop_eq_nil_iff_le.mp hdrop
    omega
  | cons a suffix ih =>
    intro pc table hdrop hlen
    obtain ⟨hget, hdrop2, hpclen⟩ := drop_cons_facts prog suffix a pc hdrop
    by_cases hopa : isOp a = true
    · have hopAt : opAtB isOp prog pc = true := by
        unfold opAtB
        rw [hget]
        exact hopa
      have hsome := matchIdx_isSome isOp isCl hdisj prog hbal pc hopAt
      obtain ⟨j0, hj0⟩ := Option.isSome_iff_exists.mp hsome
      obtain ⟨o, ho, hoj⟩ := Option.map_eq_some'.mp hj0
      have hoj2 : pc + 1 + o = j0 := hoj
      obtain ⟨hpcj0, hj0len, ⟨b, hjb, hclb⟩, _, _⟩ :=
        matchIdx_spec isOp isCl hdisj prog pc j0 hopAt hj0
      have hcstep : cjtGo isOp isCl prog (a :: suffix) pc table =
          cjtGo isOp isCl prog suffix (pc + 1)
            ((table.set pc (pc + 1 + o)).set (pc + 1 + o) pc) := by
        simp only [cjtGo, if_pos hopa, ho]
      rw [hoj2] at hcstep
      have hlen2 : ((table.set pc j0).set j0 pc).length = prog.length := by
        rw [List.length_set, List.length_set, hlen]
      obtain ⟨t2, hrun, hlen3, huntouched, hset⟩ :=
        ih (pc + 1) ((table.set pc j0).set j0 pc) hdrop2 hlen2
      refine ⟨t2, by rw [hcstep]; exact hrun, hlen3, ?_, ?_⟩
      · intro j hnw
        have hj_ne_pc : pc ≠ j := (hnw pc (le_refl pc) hopAt).1
        have hj_ne_j0 : j0 ≠ j := by
          intro hc
          exact (hnw pc (le_refl pc) hopAt).2 (by rw [hc] at hj0; exact hj0)
        rw [huntouched j (fun i3 hi3 hop3 => hnw i3 (by omega) hop3)]
        rw [getD_set_other _ _ _ _ hj_ne_j0, getD_set_other _ _ _ _ hj_ne_pc]
      · intro i2 j hpci2 hop2 hm2
        rcases Nat.eq_or_lt_of_le hpci2 with heq | hlt
        · subst heq
          have hj : j = j0 := by
            have h2 := hm2
            rw [hj0] at h2
            injection h2 with h
            exact h.symm
          rw [hj]
          constructor
          · have hnw1 : ∀ i3, pc + 1 ≤ i3 → opAtB isOp prog i3 = true →
                i3 ≠ pc ∧ matchIdx isOp isCl prog i3 ≠ some pc := by
              intro i3 hi3 hop3
              refine ⟨by omega, ?_⟩
              intro hc
              obtain ⟨_, _, ⟨b2, hb2, hclb2⟩, _, _⟩ :=
                matchIdx_spec isOp isCl hdisj prog i3 pc hop3 hc
              rw [hget] at hb2
              injection hb2 with hb2e
              rw [hb2e] at hopa
              exact hdisj b2 hopa hclb2
            rw [huntouched pc hnw1,
              getD_set_other _ _ _ _ (show j0 ≠ pc by omega),
              getD_set_self _ _ _ (show pc < table.length by omega)]
          · have hnw2 : ∀ i3, pc + 1 ≤ i3 → opAtB isOp prog i3 = true →
                i3 ≠ j0 ∧ matchIdx isOp isCl prog i3 ≠ some j0 := by
              intro i3 hi3 hop3
              refine ⟨?_, ?_⟩
              · intro hc
                obtain ⟨b3, hb3, hop3b⟩ := opAtB_elim isOp prog i3 hop3
                rw [hc, hjb] at hb3
                injection hb3 with hb3e
                rw [← hb3e] at hop3b
                exact hdisj b hop3b hclb
              · intro hc
                have := matchIdx_inj isOp isCl hdisj prog i3 pc j0 hop3 hopAt hc hj0
                omega
            rw [huntouched j0 hnw2,
              getD_set_self _ _ _
                (show j0 < (table.set pc j0).length by rw [List.length_set]; omega)]
        · exact hset i2 j hlt hop2 hm2
    · have hcstep : cjtGo isOp isCl prog (a :: suffix) pc table =
          cjtGo isOp isCl prog suffix (pc + 1) table := by
        simp only [cjtGo, if_neg hopa]
      obtain ⟨t2, hrun, hlen3, huntouched, hset⟩ := ih (pc + 1) table hdrop2 hlen
      refine ⟨t2, by rw [hcstep]; exact hrun, hlen3, ?_, ?_⟩
      · intro j hnw
        exact huntouched j (fun i3 hi3 hop3 => hnw i3 (by omega) hop3)
      · intro i2 j hpci2 hop2 hm2
        rcases Nat.eq_or_lt_of_le hpci2 with heq | hlt
        · exfalso
          subst heq
          unfold opAtB at hop2
          rw [hget] at hop2
          exact hopa hop2
        · exact hset i2 j hlt hop2 hm2

/-! ## C5: failure modes of the jump resolver -/

/-- C5 amended: for any bracket alphabet with disjoint opener/closer tests,
the resolver succeeds on every balanced program; it panics on a lone
opener (no matching closer), but it does NOT fail on a stray closer: a lone
closer is accepted with a zero table entry, in both the tree-walk and the
bytecode instantiation. -/
theorem jump_resolver_failure_modes :
    (∀ {α : Type} (isOp isCl : α → Bool),
      (∀ a, isOp a = true → isCl a = true → False) →
      ∀ prog : List α, BalancedB isOp isCl prog = true →
      (computeJumptableG isOp isCl prog).isSome = true) ∧
    Program.compute_jumptable ['['] = none ∧
    Program.compute_jumptable [']'] = some [0] ∧
    ByteCodeProgram.compute_jumptable [.JZ] = none ∧
    ByteCodeProgram.compute_jumptable [.JNZ] = some [0] := by
  refine ⟨?_, by decide, by decide, by decide, by decide⟩
  intro α isOp isCl hdisj prog hbal
  obtain ⟨t2, hrun, _, _, _⟩ := cjtGo_spec isOp isCl hdisj prog hbal prog 0
    (List.replicate prog.length 0) (by rw [List.drop_zero])
    (by rw [List.length_replicate])
  unfold computeJumptableG
  rw [hrun]
  rfl

/-- Witness for `jump_resolver_failure_modes` at the concrete balanced
program `[]` of the tree-walk instantiation. -/
theorem jump_resolver_failure_modes_witness :
    BalancedB (fun c : Char => c == '[') (fun c : Char => c == ']')
      ['[', ']'] = true ∧
    (computeJumptableG (fun c : Char => c == '[') (fun c : Char => c == ']')
      ['[', ']']).isSome = true := by
  refine ⟨by decide, ?_⟩
  exact jump_resolver_failure_modes.1 (fun c : Char => c == '[')
    (fun c : Char => c == ']')
    (fun a h1 h2 => by
      rw [beq_iff_eq] at h1 h2
      subst h1
      exact absurd h2 (by decide))
    ['[', ']'] (by decide)

/-- C5 counterexample: the claim requires the resolver to report
UnbalancedBrackets on a lone closer, but `compute_jumptable` of the
one-character program `]` succeeds. -/
theorem stray_closer_accepted :
    (Program.compute_jumptable [']']).isSome = true ∧
    (ByteCodeProgram.compute_jumptable [.JNZ]).isSome = true := by
  refine ⟨by decide, by decide⟩

/-! ## C6: the jump-table involution -/

/-- C6: for every balanced program over a bracket alphabet with disjoint
opener/closer tests, jump-table construction succeeds and yields a table
with `table[table[i]] = i` and `prog[table[table[i]]] = prog[i]` for every
bracket index `i`.  This covers both `Program::compute_jumptable` and
`ByteCodeProgram::compute_jumptable`, which are the two instantiations of
`computeJumptableG`. -/
theorem jumptable_involution {α : Type} (isOp isCl : α → Bool)
    (hdisj : ∀ a, isOp a = true → isCl a = true → False)
    (prog : List α) (hbal : BalancedB isOp isCl prog = true) (dflt : α) :
    ∃ t, computeJumptableG isOp isCl prog = some t ∧
      t.length = prog.length ∧
      ∀ i, i < prog.length →
        (isOp (prog.getD i dflt) = true ∨ isCl (prog.getD i dflt) = true) →
        t.getD (t.getD i 0) 0 = i ∧
        prog.getD (t.getD (t.getD i 0) 0) dflt = prog.getD i dflt := by
  obtain ⟨t2, hrun, hlen, huntouched, hset⟩ :=
    cjtGo_spec isOp isCl hdisj prog hbal prog 0
      (List.replicate prog.length 0) (by rw [List.drop_zero])
      (by rw [List.length_replicate])
  refine ⟨t2, by unfold computeJumptableG; exact hrun, hlen, ?_⟩
  intro i hi hbr
  obtain ⟨a, ha⟩ : ∃ a, prog.get? i = some a :=
    ⟨prog.get ⟨i, hi⟩, List.get?_eq_some.mpr ⟨hi, rfl⟩⟩
  have hgd : prog.getD i dflt = a := by
    rw [List.getD_eq_get?, ha]
    rfl
  rw [hgd] at hbr
  rcases hbr with hbr | hbr
  · have hopAt : opAtB isOp prog i = true := by
      unfold opAtB
      rw [ha]
      exact hbr
    have hsome := matchIdx_isSome isOp isCl hdisj prog hbal i hopAt
    obtain ⟨j, hj⟩ := Option.isSome_iff_exists.mp hsome
    obtain ⟨hti, htj⟩ := hset i j (Nat.zero_le i) hopAt hj
    rw [hti, htj]
    exact ⟨rfl, rfl⟩
  · obtain ⟨i0, hop0, hm0⟩ := closer_matched isOp isCl hdisj prog hbal i a ha hbr
    obtain ⟨hti0, hti⟩ := hset i0 i (Nat.zero_le i0) hop0 hm0
    rw [hti, hti0]
    exact ⟨rfl, rfl⟩

/-- Witness for `jumptable_involution` at the concrete balanced program
`[]` of the tree-walk instantiation. -/
theorem jumptable_involution_witness :
    ∃ t, computeJumptableG (fun c : Char => c == '[') (fun c : Char => c == ']')
        ['[', ']'] = some t ∧
      t.length = (['[', ']'] : List Char).length ∧
      ∀ i, i < (['[', ']'] : List Char).length →
        (((['[', ']'] : List Char).getD i ' ' == '[') = true ∨
          ((['[', ']'] : List Char).getD i ' ' == ']') = true) →
        t.getD (t.getD i 0) 0 = i ∧
        (['[', ']'] : List Char).getD (t.getD (t.getD i 0) 0) ' ' =
          (['[', ']'] : List Char).getD i ' ' :=
  jumptable_involution (fun c : Char => c == '[') (fun c : Char => c == ']')
    (fun a h1 h2 => by
      rw [beq_iff_eq] at h1 h2
      subst h1
      exact absurd h2 (by decide))
    ['[', ']'] (by decide) ' '

/-! ## C2: the peephole optimizer -/

/-- Fuel-general form of the C2 length bound: each iteration of the pass
emits one opcode and consumes one or three. -/
theorem optGo_length_le : ∀ fuel l, (optGo fuel l).length ≤ l.length := by
  intro fuel
  induction fuel with
  | zero => intro l; simp [optGo]
  | succ f ih =>
    intro l
    match l with
    | [] => simp [optGo]
    | i :: rest =>
      have hrec := ih rest
      have hdrop := ih (rest.drop 2)
      have hd : (rest.drop 2).length = rest.length - 2 := List.length_drop 2 rest
      cases i with
      | JZ =>
        simp only [optGo]
        by_cases hsz : is_set_zero (ByteCode.JZ :: rest) = true
        · rw [if_pos hsz]
          simp only [List.length_cons]
          omega
        · rw [if_neg hsz]
          cases hmv : is_move_until_zero (ByteCode.JZ :: rest) with
          | some chng =>
            simp only [List.length_cons]
            omega
          | none =>
            simp only [List.length_cons]
            omega
      | Nop => simp only [optGo, List.length_cons]; omega
      | DataPointerIncr x => simp only [optGo, List.length_cons]; omega
      | DataPointerDecr x => simp only [optGo, List.length_cons]; omega
      | DataIncr x => simp only [optGo, List.length_cons]; omega
      | DataDecr x => simp only [optGo, List.length_cons]; omega
      | Write => simp only [optGo, List.length_cons]; omega
      | Read => simp only [optGo, List.length_cons]; omega
      | JNZ => simp only [optGo, List.length_cons]; omega
      | SETZERO => simp only [optGo, List.length_cons]; omega
      | MoveInStepUntilZero chng => simp only [optGo, List.length_cons]; omega

/-- Length part of C2: `opt_pass_1` never lengthens the program. -/
theorem opt_pass_1_length_le (l : List ByteCode) :
    (opt_pass_1 l).length ≤ l.length :=
  optGo_length_le l.length l

/-- Loop body of `divergeProg` starting with an odd cell value never
terminates: adding 2 modulo 256 preserves oddness, so the cell never
becomes zero and `JNZ` always jumps back. -/
theorem diverge_loop : ∀ f v, v % 2 = 1 →
    bcRunGo divergeProg divergeJt f 2 (oddSt v) = .outOfFuel ∧
    bcRunGo divergeProg divergeJt f 3 (oddSt v) = .outOfFuel := by
  intro f
  induction f with
  | zero =>
    intro v _
    exact ⟨bcRunGo_zero divergeProg divergeJt 2 (oddSt v) (.DataIncr 2) rfl,
      bcRunGo_zero divergeProg divergeJt 3 (oddSt v) .JNZ rfl⟩
  | succ f ih =>
    intro v hv
    have hv0 : v ≠ 0 := by omega
    have hpar : (v + 2) % 256 % 2 = 1 := by omega
    constructor
    · rw [bcRunGo_step divergeProg divergeJt f 2 (oddSt v) (.DataIncr 2) rfl]
      show bcRunGo divergeProg divergeJt f 3 (oddSt ((v + 2) % 256)) = .outOfFuel
      exact (ih _ hpar).2
    · rw [bcRunGo_step divergeProg divergeJt f 3 (oddSt v) .JNZ rfl]
      have hst : bcStepInstr divergeJt 3 .JNZ (oddSt v) = .cont 2 (oddSt v) := by
        show StepRes.cont ((if v = 0 then 3 else divergeJt.getD 3 0) + 1) (oddSt v) =
          .cont 2 (oddSt v)
        rw [if_neg hv0]
        rfl
      rw [hst]
      exact (ih v hv).1

/-- Whole-program divergence of `divergeProg` at every fuel. -/
theorem diverge_all_fuel : ∀ f, ByteCodeProgram.exec divergeProg [] f = .outOfFuel := by
  have hjt : ByteCodeProgram.compute_jumptable divergeProg = some divergeJt := by decide
  have hexec : ∀ f, ByteCodeProgram.exec divergeProg [] f =
      match bcRunGo divergeProg divergeJt f 0 ⟨0 :: List.replicate 29999 0, 0, [], []⟩ with
      | .ok st => .ok { st with out := st.out ++ [10] }
      | r => r := by
    intro f
    simp only [ByteCodeProgram.exec, hjt]
    rfl
  intro f
  rw [hexec f]
  have hinner : bcRunGo divergeProg divergeJt f 0
      ⟨0 :: List.replicate 29999 0, 0, [], []⟩ = .outOfFuel := by
    match f with
    | 0 => exact bcRunGo_zero divergeProg divergeJt 0 _ (.DataIncr 1) rfl
    | 1 =>
      rw [bcRunGo_step divergeProg divergeJt 0 0 _ (.DataIncr 1) rfl]
      show bcRunGo divergeProg divergeJt 0 1 (oddSt 1) = .outOfFuel
      exact bcRunGo_zero divergeProg divergeJt 1 (oddSt 1) .JZ rfl
    | f + 2 =>
      rw [bcRunGo_step divergeProg divergeJt (f + 1) 0 _ (.DataIncr 1) rfl]
      show bcRunGo divergeProg divergeJt (f + 1) 1 (oddSt 1) = .outOfFuel
      rw [bcRunGo_step divergeProg divergeJt f 1 (oddSt 1) .JZ rfl]
      show bcRunGo divergeProg divergeJt f 2 (oddSt 1) = .outOfFuel
      exact (diverge_loop f 1 rfl).1
  rw [hinner]

/-- C2 counterexample: behavioral equivalence fails.  The sequence
`[DataIncr 1, JZ, DataIncr 2, JNZ]` (the lowering of `+[++]`) diverges —
the cell value stays odd under wrap-around increments of 2 — while its
optimization `[DataIncr 1, SETZERO]` terminates normally. -/
theorem opt_pass_1_changes_termination :
    ¬ BCTerminates divergeProg [] ∧
    opt_pass_1 divergeProg = [.DataIncr 1, .SETZERO] ∧
    (ByteCodeProgram.exec (opt_pass_1 divergeProg) [] 9).outOf = some [10] := by
  refine ⟨?_, by decide, by decide⟩
  rintro ⟨f, hf⟩
  exact hf (diverge_all_fuel f)

/-! ## C1 / C3: cell arithmetic across engines -/

/-- C1: on the well-formed program `-.` the tree-walk interpreter
(release-profile wrap-around, printed as a UTF-8 code point) writes the
bytes 195,191 whereas the bytecode-interpreter engine, whose `DataDecr`
saturates at zero, writes the single byte 0 — the engines' standard output
differs beyond the trailing newline. -/
theorem engines_disagree_on_wrapping_decrement :
    (treeWalkEngineExec ['-', '.'] [] 9).outOf = some [195, 191, 10] ∧
    (bytecodeEngineExec ['-', '.'] [] 9).outOf = some [0, 10] := by
  refine ⟨by decide, by decide⟩

/-- C3: `DataDecr` in the bytecode interpreter saturates at zero instead of
wrapping modulo 256: on the program `-` the bytecode engine leaves cell 0
at 0, whereas the tree-walk interpreter and the IR-based engine wrap it to
255. -/
theorem bytecode_cell_decrement_saturates :
    (bytecodeEngineExec ['-'] [] 9).cell0 = some 0 ∧
    (treeWalkEngineExec ['-'] [] 9).cell0 = some 255 ∧
    (llvmEngineExec ['-'] [] 9).cell0 = some 255 := by
  refine ⟨by decide, by decide, by decide⟩

/-! ## C4: cursor underflow -/

/-- C4 amended: `DataPointerDecr` clamps the cursor at zero (the truncated
`Nat` subtraction equals the claim's `max 0 (k - n)`), but the cursor shift
inside `MoveInStepUntilZero` with a `Decr` change subtracts without
clamping and panics on underflow. -/
theorem pointer_decr_clamps_scan_does_not :
    (∀ jt pc x st, bcStepInstr jt pc (.DataPointerDecr x) st =
        .cont (pc + 1) { st with dc := st.dc - min x st.dc }) ∧
    (∀ k n : Nat, ((k - min n k : Nat) : Int) = max 0 ((k : Int) - (n : Int))) ∧
    (∀ jt pc x st v, st.mem.get? st.dc = some v → v ≠ 0 → st.dc < x →
        bcStepInstr jt pc (.MoveInStepUntilZero (.Decr x)) st = .panic) := by
  refine ⟨fun jt pc x st => rfl, ?_, ?_⟩
  · intro k n
    omega
  · intro jt pc x st v hv hv0 hdc
    simp only [bcStepInstr, hv]
    rw [if_neg hv0, if_neg (show ¬ x ≤ st.dc by omega)]

/-- Witness for `pointer_decr_clamps_scan_does_not` at concrete inputs. -/
theorem pointer_decr_clamps_scan_does_not_witness :
    bcStepInstr [] 0 (.DataPointerDecr 5) ⟨[7], 3, [], []⟩ = .cont 1 ⟨[7], 0, [], []⟩ ∧
    ((3 - min 5 3 : Nat) : Int) = max 0 ((3 : Int) - (5 : Int)) ∧
    bcStepInstr [] 0 (.MoveInStepUntilZero (.Decr 2)) ⟨[7], 0, [], []⟩ = .panic := by
  refine ⟨?_, pointer_decr_clamps_scan_does_not.2.1 3 5, ?_⟩
  · rw [pointer_decr_clamps_scan_does_not.1 [] 0 5 ⟨[7], 3, [], []⟩]
    decide
  · exact pointer_decr_clamps_scan_does_not.2.2 [] 0 2 ⟨[7], 0, [], []⟩ 7 rfl
      (by decide) (by decide)

/-- C4 counterexample: with cell 0 nonzero and the cursor at 0, the scan
`MoveInStepUntilZero (Decr 2)` panics (unchecked `usize` subtraction)
whereas a `DataPointerDecr 2` at the same state clamps to cursor 0 —
the scan does not clamp like `PointerSub`. -/
theorem scan_decr_underflow_panics :
    ByteCodeProgram.exec [.DataIncr 1, .MoveInStepUntilZero (.Decr 2)] [] 9 = .panic ∧
    (ByteCodeProgram.exec [.DataIncr 1, .DataPointerDecr 2] [] 9).dcOf = some 0 := by
  refine ⟨by decide, by decide⟩

/-! ## C7: what the JIT engines consume -/

/-- C7 amended: both native-code engines emit code for the *unoptimized*
lowering `Parser::parse_to_bytecode(src)`; neither calls `opt_pass_1`. -/
theorem jits_consume_lowered_bytecode (src : List Char) :
    BytecodeJit.consumed src = Parser.parse_to_bytecode src ∧
    LlvmJit.consumed src = Parser.parse_to_bytecode src :=
  ⟨rfl, rfl⟩

/-- C7 counterexample: for the source `[-]` the sequence both JIT engines
consume is the unoptimized `[JZ, DataDecr 1, JNZ]`, which differs from the
optimized bytecode `[SETZERO]` the claim prescribes. -/
theorem jit_consumes_unoptimized_concrete :
    BytecodeJit.consumed ['[', '-', ']'] = [.JZ, .DataDecr 1, .JNZ] ∧
    LlvmJit.consumed ['[', '-', ']'] = [.JZ, .DataDecr 1, .JNZ] ∧
    opt_pass_1 (Parser.parse_to_bytecode ['[', '-', ']']) = [.SETZERO] ∧
    [ByteCode.JZ, .DataDecr 1, .JNZ] ≠ [ByteCode.SETZERO] := by
  refine ⟨by decide, by decide, by decide, by decide⟩

/-! ## C8: Nop handling -/

/-- C8 amended: the two JIT lowerings treat `Nop` as a no-op (the LLVM
lowering emits no IR and the dynasm lowering emits no fragments), but the
bytecode interpreter does *not* tolerate it: `Nop` falls into the
`_ => unreachable!()` arm of `eval` and panics. -/
theorem nop_tolerance_by_engine :
    (∀ jt pc st, bcStepInstr jt pc .Nop st = .panic) ∧
    (∀ jt pc st, llvmStepInstr jt pc .Nop st = .cont (pc + 1) st) ∧
    (∀ stack, BytecodeJit.emitInstr .Nop stack = some ([], stack)) :=
  ⟨fun _ _ _ => rfl, fun _ _ _ => rfl, fun _ => rfl⟩

/-- C8 counterexample: executing the one-opcode program `[Nop]` in the
bytecode interpreter panics instead of completing as a no-op. -/
theorem bytecode_interp_panics_on_nop :
    ByteCodeProgram.exec [.Nop] [] 9 = .panic := by decide

/-! ## C9: trailing newline -/

/-- C9 amended: on the empty program the tree-walk and bytecode engines
write exactly the trailing newline byte 10; the two direct emitters emit no
body code at all (only prologue and `ret`), so their host-side
`println!("")` is the only output; the IR-based engine writes nothing —
llvm_jit.rs has no trailing `println!`. -/
theorem trailing_newline_by_engine :
    (treeWalkEngineExec [] [] 1).outOf = some [10] ∧
    (bytecodeEngineExec [] [] 1).outOf = some [10] ∧
    (∀ addr, SimpleJit.emittedCode addr [] =
        some ([0x49, 0xBD] ++ (uint64LEBytes addr ++ [0xC3]))) ∧
    BytecodeJit.emitted [] = some [] ∧
    (llvmEngineExec [] [] 1).outOf = some [] := by
  refine ⟨by decide, by decide, fun addr => rfl, by decide, by decide⟩

/-- C9 counterexample: the IR-based engine produces no output at all on the
empty program — in particular not the single newline byte the claim
requires of every engine. -/
theorem llvm_engine_no_trailing_newline :
    (llvmEngineExec [] [] 1).outOf = some [] ∧
    some ([] : List Nat) ≠ some [10] := by
  refine ⟨by decide, by decide⟩

/-! ## C10: the lowerer never emits Nop -/

/-- Core lemma for C10: on input consisting only of the eight recognised
characters, `parse_to_bytecode_go` emits only the eight core opcodes (in
particular, never `Nop`), at every fuel. -/
theorem parse_go_core : ∀ fuel l, (∀ c ∈ l, c ∈ bfChars) →
    ∀ b ∈ parse_to_bytecode_go fuel l, isCoreOpcode b = true := by
  intro fuel
  induction fuel with
  | zero =>
    intro l _ b hb
    simp [parse_to_bytecode_go] at hb
  | succ f ih =>
    intro l hl b hb
    match l with
    | [] => simp [parse_to_bytecode_go] at hb
    | c :: rest =>
      have hsub : ∀ x ∈ rest, x ∈ bfChars :=
        fun x hx => hl x (List.mem_cons_of_mem c hx)
      have hsubd : ∀ k : Nat, ∀ x ∈ rest.drop k, x ∈ bfChars :=
        fun k x hx => hsub x (List.drop_subset k rest hx)
      have hc := hl c (List.mem_cons_self c rest)
      simp only [bfChars, List.mem_cons, List.not_mem_nil, or_false] at hc
      rcases hc with h | h | h | h | h | h | h | h
      · subst h
        simp [parse_to_bytecode_go] at hb
        rcases hb with hb | hb
        · subst hb; rfl
        · exact ih _ (hsubd _) b hb
      · subst h
        simp [parse_to_bytecode_go] at hb
        rcases hb with hb | hb
        · subst hb; rfl
        · exact ih _ (hsubd _) b hb
      · subst h
        simp [parse_to_bytecode_go] at hb
        rcases hb with hb | hb
        · subst hb; rfl
        · exact ih _ (hsubd _) b hb
      · subst h
        simp [parse_to_bytecode_go] at hb
        rcases hb with hb | hb
        · subst hb; rfl
        · exact ih _ (hsubd _) b hb
      · subst h
        simp [parse_to_bytecode_go] at hb
        rcases hb with hb | hb
        · subst hb; rfl
        · exact ih _ hsub b hb
      · subst h
        simp [parse_to_bytecode_go] at hb
        rcases hb with hb | hb
        · subst hb; rfl
        · exact ih _ hsub b hb
      · subst h
        simp [parse_to_bytecode_go] at hb
        rcases hb with hb | hb
        · subst hb; rfl
        · exact ih _ hsub b hb
      · subst h
        simp [parse_to_bytecode_go] at hb
        rcases hb with hb | hb
        · subst hb; rfl
        · exact ih _ hsub b hb

/-- C10: `Parser::parse_to_bytecode` never emits `Nop` (and never emits the
optimiser-only opcodes): every opcode of the lowered program is one of the
eight core opcodes, because `Parser::parse` filters the input down to the
eight recognised characters before lowering. -/
theorem lowerer_emits_only_core_opcodes (src : List Char) (b : ByteCode)
    (hb : b ∈ Parser.parse_to_bytecode src) : isCoreOpcode b = true := by
  refine parse_go_core (Parser.parse src).length (Parser.parse src) ?_ b hb
  intro c hc
  have := List.of_mem_filter hc
  simpa [bfChars, List.contains] using this

/-- Witness for `lowerer_emits_only_core_opcodes` at a concrete input. -/
theorem lowerer_emits_only_core_opcodes_witness :
    (ByteCode.JZ ∈ Parser.parse_to_bytecode ['[', ']']) ∧
    isCoreOpcode .JZ = true :=
  ⟨by decide, lowerer_emits_only_core_opcodes ['[', ']'] .JZ (by decide)⟩

end BF
